import Mathlib

/-!
Shallow embedding of the migration engine of `clbs-io/dbtool`
(`internal/dbtool/dbtool.go`, latest iteration, together with
`internal/config/config.go`).

Conventions of the embedding:
* Go strings are Lean `String`s; Go compares strings byte-wise, which for
  valid UTF-8 coincides with the code-point-wise lexicographic order used
  here (UTF-8 is order-preserving), so `lexCmp` on `List Char` models
  `strings.Compare` and `leadsWith` models `strings.HasPrefix`.
* `os.PathSeparator` is `'/'` (the tool targets Linux containers).
* The database is modelled by its observable data: the ledger rows for the
  configured app id, in insertion order, as a `List Migration`; executing
  SQL and inserting rows during apply are modelled by boolean oracles.
* Go's `logger.Fatal` aborts the process; fallible functions therefore
  return `Except`/`Option`, and an aborted apply run is an error value.
-/

/-- Lexicographic comparison of char lists, returning -1/0/1 exactly like
Go's `strings.Compare` (byte order and code-point order agree on UTF-8). -/
def lexCmp : List Char → List Char → Int
  | [], [] => 0
  | [], _ :: _ => -1
  | _ :: _, [] => 1
  | a :: as, b :: bs =>
      if a = b then lexCmp as bs
      else if a.toNat < b.toNat then -1 else 1

/-- `strings.Compare` on Go strings. -/
def strCmp (a b : String) : Int := lexCmp a.toList b.toList

/-- `strings.HasPrefix`: is the first list a prefix of the second? -/
def leadsWith : List Char → List Char → Bool
  | [], _ => true
  | _ :: _, [] => false
  | c :: cs, d :: ds => c = d && leadsWith cs ds

/-- `strings.Split(s, "/")` on the character level: always returns at least
one (possibly empty) segment. -/
def splitSegs : List Char → List (List Char)
  | [] => [[]]
  | c :: cs =>
      if c = '/' then [] :: splitSegs cs
      else
        match splitSegs cs with
        | [] => [[c]]
        | s :: rest => (c :: s) :: rest

/-- `strings.SplitN(s, "/", 2)[0]`: everything before the first separator. -/
def takeUntilSep : List Char → List Char
  | [] => []
  | c :: cs => if c = '/' then [] else c :: takeUntilSep cs

/-- `path.Join(subDir, name)` for already-clean operands (the walker only
joins clean directory names and entry names, so no `Clean` rewriting
occurs). -/
def joinPath (subDir name : String) : String :=
  if subDir = "" then name else subDir ++ "/" ++ name

/-- Character class `[a-z0-9]` of `reFilename`. -/
def isLowerAlnum (c : Char) : Bool :=
  (97 ≤ c.toNat && c.toNat ≤ 122) || (48 ≤ c.toNat && c.toNat ≤ 57)

/-- Character class `[a-z0-9-_]` of `reFilename`. -/
def isWordChar (c : Char) : Bool :=
  isLowerAlnum c || c = '-' || c = '_'

/-- Part of `reFilename` after the first character: `[a-z0-9-_]*` followed
by one arbitrary character (the dot before `sql` is NOT escaped in the
source, so it matches any single character) followed by the literal `sql`.
A list matches iff its last three characters are `s`,`q`,`l`, the fourth
from the end is arbitrary, and everything before is in `[a-z0-9-_]`. -/
def reMatchTail (xs : List Char) : Bool :=
  match xs.reverse with
  | 'l' :: 'q' :: 's' :: _ :: mid => mid.all isWordChar
  | _ => false

/-- The anchored regular expression
`reFilename = ^[a-z0-9]+[a-z0-9-_]*.sql$` from `dbtool.go`: first character
in `[a-z0-9]` (since `[a-z0-9] ⊆ [a-z0-9-_]`, the `+` beyond its first
character folds into the following `*`), then `reMatchTail`.
(`reFilenameMatches_iff` below proves this decision procedure equivalent to
the existential reading of the regular expression.) -/
def reFilenameMatches (s : String) : Bool :=
  match s.toList with
  | [] => false
  | c :: rest => isLowerAlnum c && reMatchTail rest

/-- `fileType` from `dbtool.go` (`fileTypeUnknown/Sql/Snapshot`). -/
inductive fileType where
  | unknown : fileType
  | sql : fileType
  | snapshot : fileType
deriving DecidableEq

/-- `getFileType` from `dbtool.go`. -/
def getFileType (name : String) : fileType :=
  if reFilenameMatches name then .sql
  else if name = ".snapshot" then .snapshot
  else .unknown

/-- `sqlFile` from `dbtool.go`. -/
structure sqlFile where
  path : String
  hash : String
  apply : Bool
  isSnapshot : Bool
deriving DecidableEq

/-- Existential reading of `reFilename`: the name decomposes as one or more
`[a-z0-9]` characters, then zero or more `[a-z0-9-_]` characters, then one
arbitrary character (the unescaped dot), then the literal `sql`. -/
def reFilenameSpec (s : String) : Prop :=
  ∃ a b c, s.toList = a ++ b ++ c :: ['s', 'q', 'l'] ∧
    a ≠ [] ∧ a.all isLowerAlnum = true ∧ b.all isWordChar = true

theorem reMatchTail_iff (xs : List Char) :
    reMatchTail xs = true ↔
      ∃ b c, xs = b ++ c :: ['s', 'q', 'l'] ∧ b.all isWordChar = true := by
  unfold reMatchTail
  split
  · next d mid heq =>
    have hx : xs = mid.reverse ++ d :: ['s', 'q', 'l'] := by
      have h := congrArg List.reverse heq
      simp at h
      simpa using h
    constructor
    · intro hall
      refine ⟨mid.reverse, d, hx, ?_⟩
      rw [List.all_eq_true] at hall ⊢
      intro x hx'
      exact hall x (List.mem_reverse.mp hx')
    · rintro ⟨b, c, hdec, hball⟩
      have hrev : xs.reverse = 'l' :: 'q' :: 's' :: c :: b.reverse := by
        rw [hdec]; simp
      rw [heq] at hrev
      simp only [List.cons.injEq, true_and] at hrev
      rw [List.all_eq_true] at hball ⊢
      intro x hx'
      rw [hrev.2] at hx'
      exact hball x (List.mem_reverse.mp hx')
  · next h =>
    simp only [Bool.false_eq_true, false_iff]
    rintro ⟨b, c, hdec, -⟩
    exact h c b.reverse (by rw [hdec]; simp)

theorem reFilenameMatches_iff (s : String) :
    reFilenameMatches s = true ↔ reFilenameSpec s := by
  unfold reFilenameMatches reFilenameSpec
  split
  · next heq =>
    simp only [Bool.false_eq_true, false_iff]
    rintro ⟨a, b, c, hdec, hne, -, -⟩
    rw [heq] at hdec
    rcases a with _ | ⟨a0, arest⟩
    · exact hne rfl
    · simp at hdec
  · next ch rest heq =>
    rw [Bool.and_eq_true, reMatchTail_iff]
    constructor
    · rintro ⟨hch, b, c, hdec, hball⟩
      refine ⟨[ch], b, c, by rw [heq, hdec]; simp, by simp, ?_, hball⟩
      simpa using hch
    · rintro ⟨a, b, c, hdec, hne, ha, hb⟩
      rcases a with _ | ⟨a0, arest⟩
      · exact absurd rfl hne
      rw [heq] at hdec
      simp only [List.cons_append, List.cons.injEq] at hdec
      obtain ⟨rfl, hrest⟩ := hdec
      rw [List.all_cons, Bool.and_eq_true] at ha
      refine ⟨ha.1, arest ++ b, c, by simp [hrest], ?_⟩
      rw [List.all_append, Bool.and_eq_true]
      refine ⟨?_, hb⟩
      have hrest' := ha.2
      rw [List.all_eq_true] at hrest' ⊢
      intro x hx'
      unfold isWordChar
      rw [Bool.or_eq_true, Bool.or_eq_true]
      exact Or.inl (Or.inl (hrest' x hx'))

/-- `strings.HasSuffix`. -/
def hasSuffix (s suf : String) : Bool :=
  leadsWith suf.toList.reverse s.toList.reverse

mutual
/-- One entry of an in-memory filesystem tree.  A `file` node carries the
entry name and the result of `getFileHash` (the SHA-256 hex digest of the
raw file bytes) as an opaque string: none of the verified claims depends on
the digest function itself, only on hash values being carried along.  The
entry list of each directory (`FsList`, a copy of `List FsEntry` made
mutual so that the walker is structurally recursive) is in the order
`os.ReadDir` yields (sorted by file name). -/
inductive FsEntry where
  | file (name : String) (hash : String) : FsEntry
  | dir (name : String) (sub : FsList) : FsEntry
inductive FsList where
  | nil : FsList
  | cons (e : FsEntry) (rest : FsList) : FsList
end

/-- `local_files[idx].isSnapshot = true` assignment from `readDir`. -/
def tagSnap (f : sqlFile) : sqlFile := { f with isSnapshot := true }

mutual
/-- `readDir` from `dbtool.go`, split per entry/entry list.
`readDirEnt` is one iteration of the `for _, e := range entry` loop: a
subdirectory contributes its own (recursively collected, and tagged when
the subdirectory carried a marker) files, a `.sql` file contributes itself,
a `.snapshot` marker raises the `is_snapshot` flag (only legal while
`len(strings.Split(subDir, "/")) == 1`), a near-miss `.sql` name is a
fatal error, and anything else is skipped.  `readDirE` folds the entries
left to right, short-circuiting on the first error exactly like the Go
loop's early `return err`, accumulating `local_files` and `is_snapshot`. -/
def readDirEnt (subDir : String) : FsEntry → Except String (List sqlFile × Bool)
  | .file name hash =>
      match getFileType name with
      | .unknown =>
          if hasSuffix name ".sql" then
            .error ("the file name '" ++ name ++
              "' which has .sql extension contains invalid characters")
          else .ok ([], false)
      | .snapshot =>
          if (splitSegs subDir.toList).length ≠ 1 then
            .error (".snapshot file can only be placed in the first level directory, invalid location: "
              ++ joinPath subDir name)
          else .ok ([], true)
      | .sql => .ok ([⟨joinPath subDir name, hash, false, false⟩], false)
  | .dir name sub =>
      match readDirE (joinPath subDir name) sub with
      | .error e => .error e
      | .ok (fs, snap) => .ok (if snap then fs.map tagSnap else fs, false)
def readDirE (subDir : String) : FsList → Except String (List sqlFile × Bool)
  | .nil => .ok ([], false)
  | .cons e rest =>
      match readDirEnt subDir e with
      | .error er => .error er
      | .ok (fs1, s1) =>
          match readDirE subDir rest with
          | .error er => .error er
          | .ok (fs2, s2) => .ok (fs1 ++ fs2, s1 || s2)
end

/-- `readDir` from `dbtool.go` for one directory: run the entry loop, then
apply the directory's snapshot tag to all collected files (this is what
the `.dir` branch of `readDirEnt` inlines for subdirectories). -/
def readDirD (subDir : String) (es : FsList) : Except String (List sqlFile) :=
  match readDirE subDir es with
  | .error e => .error e
  | .ok (fs, snap) => .ok (if snap then fs.map tagSnap else fs)

/-- The top-level `readDir(&sqlFiles, cfg.Dir(), "")` call on the migration
root. -/
def readDir (root : FsList) : Except String (List sqlFile) :=
  readDirD "" root

/-- Does a directory's entry list directly contain a snapshot marker? -/
def hasSnapshotMarker : FsList → Bool
  | .nil => false
  | .cons (.file name _) rest =>
      (getFileType name = fileType.snapshot) || hasSnapshotMarker rest
  | .cons (.dir _ _) rest => hasSnapshotMarker rest

/-- Result of the Go loop `for k := range li` inside the sort comparator of
`prepareFiles`: it either returns a nonzero comparison value, falls through
after exhausting `si`, or indexes `sj` out of range (a Go runtime panic,
which can only happen when one path's segment list strictly extends the
other's — impossible for paths of distinct files in one filesystem tree). -/
inductive LoopRes where
  | ret (c : Int) : LoopRes
  | fell : LoopRes
  | oob : LoopRes
deriving DecidableEq

/-- The comparator loop `for k := range li { c := strings.Compare(si[k], sj[k]); ... }`. -/
def segLoop : List (List Char) → List (List Char) → LoopRes
  | [], _ => .fell
  | _ :: _, [] => .oob
  | x :: xs, y :: ys =>
      if lexCmp x y = 0 then segLoop xs ys else .ret (lexCmp x y)

/-- The comparator body of `prepareFiles` from `dbtool.go` (the closure
passed to `slices.SortFunc`), on the two split segment lists `si`, `sj`.
`none` models the Go out-of-range panic. -/
def goCompareSegs (si sj : List (List Char)) : Option Int :=
  let li := si.length
  let lj := sj.length
  let minLen := min (li - 1) (lj - 1)
  match (if 0 < minLen then segLoop si sj else .fell : LoopRes) with
  | .oob => none
  | .ret c => some c
  | .fell =>
      if li = lj then some (lexCmp (si.getLastD []) (sj.getLastD []))
      else some ((lj : Int) - (li : Int))

/-- The comparator applied to the two path strings, splitting them on the
separator first as the closure in `prepareFiles` does via `splitCached`. -/
def goCompare (a b : String) : Option Int :=
  goCompareSegs (splitSegs a.toList) (splitSegs b.toList)

/-- Comparator value with the (unreachable for real file sets) panic case
defaulted; every theorem about ordering assumes segment-prefix-freeness,
under which `goCompare` is total and the default is never consulted. -/
def pathCmpD (a b : String) : Int := (goCompare a b).getD 0

/-- Insert into a sorted list w.r.t. the `prepareFiles` comparator.
`slices.SortFunc` (pattern-defeating quicksort) is modelled by insertion
sort: on comparators that are strict total orders on the input — which
`ordering_strict_total_order` establishes for the path sets the walker can
produce — every comparison sort computes the same unique sorted output. -/
def insertCmp (f : sqlFile) : List sqlFile → List sqlFile
  | [] => [f]
  | g :: gs =>
      if pathCmpD f.path g.path ≤ 0 then f :: g :: gs else g :: insertCmp f gs

/-- `prepareFiles` from `dbtool.go` (the Ordering Engine). -/
def prepareFiles : List sqlFile → List sqlFile
  | [] => []
  | f :: fs => insertCmp f (prepareFiles fs)

/-- `strings.SplitN(path, "/", 2)[0] + "/"` from `getLastSnapshot`. -/
def topDirOf (p : String) : List Char := takeUntilSep p.toList ++ ['/']

/-- Backward extension of the snapshot run in `getLastSnapshot`: counts how
many further files (scanning towards the front) are snapshot-tagged AND
have the tracked top-level directory as a path prefix; the first file
failing either test stops the scan (the `break` branches). -/
def goRun (d : List Char) : List sqlFile → Nat
  | [] => 0
  | f :: rest =>
      if f.isSnapshot && leadsWith d f.path.toList then 1 + goRun d rest else 0

/-- The `for idx := len-1; idx >= 0; idx--` loop of `getLastSnapshot`,
expressed over the reversed file list: skip the untagged files at the end
(counting them in `k`), then on the first (i.e. last in file order) tagged
file record its top-level directory and extend the run backward.  Returns
`(number of files from the end up to and including the run start, dir)`. -/
def findLastSnap : List sqlFile → Nat → Option (Nat × List Char)
  | [], _ => none
  | f :: rest, k =>
      if f.isSnapshot then
        some (k + 1 + goRun (topDirOf f.path) rest, topDirOf f.path)
      else findLastSnap rest (k + 1)

/-- `getLastSnapshot` from `dbtool.go` (the Snapshot Reducer): returns
whether a snapshot was found, the top-level directory logged, and the
truncated file list (`(*sqlFiles)[lastSnapshotIndex:]`). -/
def getLastSnapshot (files : List sqlFile) : Bool × String × List sqlFile :=
  match findLastSnap files.reverse 0 with
  | none => (false, "", files)
  | some (n, d) => (true, String.mk d, files.drop (files.length - n))

/-- One ledger row `(file_path, file_hash)` as loaded by
`prepareListOfMigrations` (`SELECT file_path, file_hash ... WHERE app_id = $1
ORDER BY id ASC`). -/
structure Migration where
  filePath : String
  fileHash : String
deriving DecidableEq

/-- The two fatal reconciliation errors of `prepareListOfMigrations`:
`"file %s has been moved since applied, %s"` and `"file %s has changed"`. -/
inductive PrepError where
  | moved (filePath : String) (histPath : String) : PrepError
  | changed (filePath : String) : PrepError
deriving DecidableEq

/-- The `for idx, f := range files` loop of `prepareListOfMigrations` from
`dbtool.go`.  The buffered channel holding the applied migrations is a FIFO
queue, modelled by the `hist` list; `t` is `toBeApplied`; `steps` is
`cfg.Steps()` (`-1` is the "unlimited" sentinel from
`internal/config/config.go`).  Returns the file list with the `apply`
flags the loop set (the Go code mutates `files[idx].apply` in place). -/
def prepareLoop (skip : Bool) (steps : Int) :
    List Migration → Int → List sqlFile → Except PrepError (List sqlFile)
  | m :: hist, t, f :: fs =>
      if m.filePath ≠ f.path then .error (.moved f.path m.filePath)
      else if m.fileHash ≠ f.hash then
        if skip then (prepareLoop skip steps hist t fs).map (f :: ·)
        else .error (.changed f.path)
      else (prepareLoop skip steps hist t fs).map (f :: ·)
  | [], t, f :: fs =>
      if t = steps then .ok (f :: fs)
      else (prepareLoop skip steps [] (t + 1) fs).map ({ f with apply := true } :: ·)
  | _, _, [] => .ok []

/-- `prepareListOfMigrations` from `dbtool.go` (the Reconciler), given the
ledger rows for the app id in insertion order. -/
def prepareListOfMigrations (skip : Bool) (steps : Int) (hist : List Migration)
    (files : List sqlFile) : Except PrepError (List sqlFile) :=
  prepareLoop skip steps hist 0 files

/-- `isInitialState` from `dbtool.go`: `SELECT 1 ... WHERE app_id = $1`
returns `pgx.ErrNoRows` exactly when the ledger holds no row for the app
id. -/
def isInitialState (hist : List Migration) : Bool := hist.isEmpty

/-- `applyMigrations` from `dbtool.go` (the Applicator).  The three I/O
oracles tell, per file path, whether opening+reading the file succeeds,
whether `conn.Exec` of its SQL text succeeds, and whether the ledger
`INSERT` succeeds.  Returns the ledger rows `(file_path, file_hash)`
appended during the run, in order, and `none` on completion or `some msg`
when `logger.Fatal` aborted the run. -/
def applyMigrations (readOk execOk insertOk : String → Bool) :
    List sqlFile → List (String × String) × Option String
  | [] => ([], none)
  | f :: fs =>
      if f.apply = false then applyMigrations readOk execOk insertOk fs
      else if readOk f.path = false then ([], some ("read " ++ f.path))
      else if execOk f.path = false then ([], some ("exec " ++ f.path))
      else if insertOk f.path = false then ([], some ("insert " ++ f.path))
      else
        let r := applyMigrations readOk execOk insertOk fs
        ((f.path, f.hash) :: r.1, r.2)

/-- The data flow of `Run` from `dbtool.go` between the walker output and
the reconciler: sort with `prepareFiles`, then — only when
`isInitialState` reports an empty ledger for the app id — truncate with
`getLastSnapshot`, then reconcile with `prepareListOfMigrations`. -/
def runPipeline (skip : Bool) (steps : Int) (hist : List Migration)
    (files : List sqlFile) : Except PrepError (List sqlFile) :=
  let sorted := prepareFiles files
  let reduced := if isInitialState hist then (getLastSnapshot sorted).2.2 else sorted
  prepareListOfMigrations skip steps hist reduced

/-- The pipeline as claim C3 reads it: the Snapshot Reducer applied on
every run, regardless of the ledger contents.  (Spec-side definition, for
comparison with `runPipeline` which follows the source.) -/
def runPipelineSpec (skip : Bool) (steps : Int) (hist : List Migration)
    (files : List sqlFile) : Except PrepError (List sqlFile) :=
  prepareListOfMigrations skip steps hist (getLastSnapshot (prepareFiles files)).2.2

/-- Error component of a reconciliation result. -/
def errOf : Except PrepError (List sqlFile) → Option PrepError
  | .error e => some e
  | .ok _ => none

/-- Spec-side reading of claim C6: walking the ordered file list against
the history cursor, the first position with an unconsumed history entry
whose path differs yields the moved error; matching path but differing
hash with skip-validation off yields the changed error; matching path and
differing hash with skip-validation on silently consumes the entry. -/
def specWalkError (skip : Bool) : List Migration → List sqlFile → Option PrepError
  | m :: hist, f :: fs =>
      if m.filePath ≠ f.path then some (.moved f.path m.filePath)
      else if m.fileHash ≠ f.hash then
        if skip then specWalkError skip hist fs else some (.changed f.path)
      else specWalkError skip hist fs
  | _, _ => none

/-- Segment-list prefix test (used to state that no discovered file path's
segment list extends another's — true of every real directory tree, since
a file and a directory of the same name cannot coexist). -/
def segPre : List (List Char) → List (List Char) → Bool
  | [], _ => true
  | _ :: _, [] => false
  | x :: xs, y :: ys => x = y && segPre xs ys

/-- Two files have non-extending paths: neither path's segment list is a
prefix of the other's (in particular the paths differ). -/
def segFree (f g : sqlFile) : Prop :=
  segPre (splitSegs f.path.toList) (splitSegs g.path.toList) = false ∧
    segPre (splitSegs g.path.toList) (splitSegs f.path.toList) = false

/-- The total comparison key realised by the `prepareFiles` comparator on
prefix-free path sets: paths with a single segment (files at the migration
root) sort after all deeper paths and lexicographically among themselves;
deeper paths sort by segment-wise lexicographic comparison.  (Spec-side
companion used to prove the comparator is a strict total order.) -/
def lexSegs : List (List Char) → List (List Char) → Int
  | [], [] => 0
  | [], _ :: _ => -1
  | _ :: _, [] => 1
  | x :: xs, y :: ys => if lexCmp x y = 0 then lexSegs xs ys else lexCmp x y

/-- Total companion order of `goCompare` (see `lexSegs`). -/
def normCmp (s t : List (List Char)) : Int :=
  if s.length ≤ 1 then (if t.length ≤ 1 then lexCmp (s.headD []) (t.headD []) else 1)
  else if t.length ≤ 1 then -1
  else lexSegs s t

theorem lexCmp_self (xs : List Char) : lexCmp xs xs = 0 := by
  induction xs with
  | nil => rfl
  | cons c cs ih => simp [lexCmp, ih]

theorem segLoop_append_same (xs u v : List (List Char)) :
    segLoop (xs ++ u) (xs ++ v) = segLoop u v := by
  induction xs with
  | nil => rfl
  | cons x rest ih => simp [segLoop, lexCmp_self, ih]

/-- C2: the File Classifier does NOT require the literal suffix `.sql`:
the dot in `reFilename` is unescaped, so it matches any character.  The
name `aasql` (no `.sql` suffix, in the sense of the code's own
`strings.HasSuffix(entryName, ".sql")` near-miss check) is classified as a
SQL migration, where the claim requires `Irrelevant`. -/
theorem getFileType_accepts_missing_dot :
    getFileType "aasql" = fileType.sql ∧ hasSuffix "aasql" ".sql" = false := by
  constructor
  · rfl
  · decide

/-- C1 (counterexample): for the paths `a/b/aaa.sql` (3 segments) and
`a/b/c/file.sql` (4 segments) all directory segments up to the shorter
path's segment count minus one (`a`, `b`) are pairwise equal and the
segment counts differ, yet the path with MORE segments sorts strictly
second: the comparator continues into the shorter path's filename segment
(`aaa.sql` vs the directory segment `c`) and that comparison decides. -/
theorem deeper_does_not_sort_first :
    (splitSegs "a/b/aaa.sql".toList).take 2 = (splitSegs "a/b/c/file.sql".toList).take 2 ∧
    (splitSegs "a/b/aaa.sql".toList).length = 3 ∧
    (splitSegs "a/b/c/file.sql".toList).length = 4 ∧
    goCompare "a/b/aaa.sql" "a/b/c/file.sql" = some (-1) ∧
    goCompare "a/b/c/file.sql" "a/b/aaa.sql" = some 1 ∧
    (prepareFiles [⟨"a/b/c/file.sql", "h2", false, false⟩, ⟨"a/b/aaa.sql", "h1", false, false⟩]).map sqlFile.path
      = ["a/b/aaa.sql", "a/b/c/file.sql"] := by
  refine ⟨by decide, by decide, by decide, by decide, by decide, by decide⟩

/-- C1 (amended): when all directory segments up to the shorter path's
segment count minus one are pairwise equal and the shorter path has at
least two segments, the comparator CONTINUES the pairwise comparison into
the later segments, starting with the shorter path's filename segment
against the longer path's next directory segment; only when that
continuation exhausts the shorter path without finding a difference (i.e.
the shorter path's full segment list is a prefix of the longer one's) does
the `lj - li` tie-break make the deeper path sort first. -/
theorem goCompare_continues_into_later_segments (a b : String)
    (h2 : 2 ≤ (splitSegs a.toList).length)
    (hlt : (splitSegs a.toList).length < (splitSegs b.toList).length)
    (heq : (splitSegs a.toList).take ((splitSegs a.toList).length - 1)
         = (splitSegs b.toList).take ((splitSegs a.toList).length - 1)) :
    goCompare a b =
      match segLoop ((splitSegs a.toList).drop ((splitSegs a.toList).length - 1))
          ((splitSegs b.toList).drop ((splitSegs a.toList).length - 1)) with
      | .ret c => some c
      | .fell => some (((splitSegs b.toList).length : Int) - ((splitSegs a.toList).length : Int))
      | .oob => none := by
  unfold goCompare goCompareSegs
  dsimp only
  have hmin : min ((splitSegs a.toList).length - 1) ((splitSegs b.toList).length - 1)
      = (splitSegs a.toList).length - 1 := by omega
  have hpos : 0 < min ((splitSegs a.toList).length - 1) ((splitSegs b.toList).length - 1) := by
    omega
  rw [if_pos hpos]
  have hsplit : segLoop (splitSegs a.toList) (splitSegs b.toList)
      = segLoop ((splitSegs a.toList).drop ((splitSegs a.toList).length - 1))
          ((splitSegs b.toList).drop ((splitSegs a.toList).length - 1)) := by
    conv_lhs => rw [← List.take_append_drop ((splitSegs a.toList).length - 1) (splitSegs a.toList),
      ← List.take_append_drop ((splitSegs a.toList).length - 1) (splitSegs b.toList)]
    rw [← heq, segLoop_append_same]
  rw [hsplit]
  rcases hr : segLoop ((splitSegs a.toList).drop ((splitSegs a.toList).length - 1))
      ((splitSegs b.toList).drop ((splitSegs a.toList).length - 1)) with c | _ | _
  · rfl
  · dsimp only
    rw [if_neg (by omega : ¬ (splitSegs a.toList).length = (splitSegs b.toList).length)]
  · rfl

theorem goCompare_continues_witness :
    2 ≤ (splitSegs "a/b/file.sql".toList).length ∧
    (splitSegs "a/b/file.sql".toList).length < (splitSegs "a/b/c/file.sql".toList).length ∧
    goCompare "a/b/file.sql" "a/b/c/file.sql" = some 1 := by
  refine ⟨by decide, by decide, ?_⟩
  have h := goCompare_continues_into_later_segments "a/b/file.sql" "a/b/c/file.sql"
    (by decide) (by decide) (by decide)
  simpa using h

deriving instance DecidableEq for Except

/-- C3 (counterexample): with a nonempty ledger history and a
snapshot-tagged file at the end of the ordered list, the Snapshot Reducer
is NOT applied: the file before the snapshot run (`b/f1.sql`) stays in the
list handed to the Reconciler, which consumes a history entry for it and
succeeds — whereas the claim's always-reduce pipeline
(`runPipelineSpec`) would have discarded it and then failed with the moved
error. -/
theorem snapshot_reducer_gated_by_history :
    runPipeline false (-1) [⟨"b/f1.sql", "h1"⟩]
        [⟨"b/f1.sql", "h1", false, false⟩, ⟨"c/s1.sql", "h2", false, true⟩]
      = .ok [⟨"b/f1.sql", "h1", false, false⟩, ⟨"c/s1.sql", "h2", true, true⟩] ∧
    runPipelineSpec false (-1) [⟨"b/f1.sql", "h1"⟩]
        [⟨"b/f1.sql", "h1", false, false⟩, ⟨"c/s1.sql", "h2", false, true⟩]
      = .error (.moved "c/s1.sql" "b/f1.sql") := by
  exact ⟨by decide, by decide⟩

/-- C3 (amended): the Snapshot Reducer runs only when `isInitialState`
reports that the ledger has no row for the application identity; when
history exists, the reducer is skipped and the Reconciler receives the
full canonically ordered list. -/
theorem runPipeline_reduces_only_when_initial (skip : Bool) (steps : Int)
    (hist : List Migration) (files : List sqlFile) :
    (hist = [] → runPipeline skip steps hist files
      = prepareListOfMigrations skip steps hist
          (getLastSnapshot (prepareFiles files)).2.2) ∧
    (hist ≠ [] → runPipeline skip steps hist files
      = prepareListOfMigrations skip steps hist (prepareFiles files)) := by
  cases hist with
  | nil => exact ⟨fun _ => rfl, fun h => absurd rfl h⟩
  | cons m rest => exact ⟨fun h => (nomatch h), fun _ => rfl⟩

theorem runPipeline_reduces_only_when_initial_witness :
    ([⟨"b/f1.sql", "h1"⟩] : List Migration) ≠ [] ∧
    runPipeline false (-1) [⟨"b/f1.sql", "h1"⟩]
        [⟨"c/s1.sql", "h2", false, true⟩, ⟨"b/f1.sql", "h1", false, false⟩]
      = prepareListOfMigrations false (-1) [⟨"b/f1.sql", "h1"⟩]
          (prepareFiles [⟨"c/s1.sql", "h2", false, true⟩, ⟨"b/f1.sql", "h1", false, false⟩]) := by
  exact ⟨by decide,
    (runPipeline_reduces_only_when_initial false (-1) [⟨"b/f1.sql", "h1"⟩]
      [⟨"c/s1.sql", "h2", false, true⟩, ⟨"b/f1.sql", "h1", false, false⟩]).2 (by decide)⟩

/-- C4 (counterexample): a snapshot marker in the first-level directory
`a` tags not only `a`'s directly contained migration `a/f.sql` but also
`a/b/g.sql`, which lies in the subdirectory `a/b` — the claim says files
in subdirectories must not receive the tag from `a`'s marker. -/
theorem marker_tags_subdirectory_files :
    readDir (.cons (.dir "a" (.cons (.file ".snapshot" "")
        (.cons (.dir "b" (.cons (.file "g.sql" "h2") .nil))
          (.cons (.file "f.sql" "h1") .nil)))) .nil)
      = .ok [⟨"a/b/g.sql", "h2", false, true⟩, ⟨"a/f.sql", "h1", false, true⟩] := rfl

theorem readDirE_cons (subDir : String) (e : FsEntry) (rest : FsList) :
    readDirE subDir (.cons e rest) =
      match readDirEnt subDir e with
      | .error er => .error er
      | .ok (fs1, s1) =>
          match readDirE subDir rest with
          | .error er => .error er
          | .ok (fs2, s2) => .ok (fs1 ++ fs2, s1 || s2) := rfl

theorem readDirE_marker_flag :
    ∀ (subDir : String) (es : FsList), hasSnapshotMarker es = true →
      ∀ fs b, readDirE subDir es = .ok (fs, b) → b = true
  | subDir, .cons e rest, hm, fs, b, heq => by
      rw [readDirE_cons] at heq
      rcases hent : readDirEnt subDir e with er | ⟨fs1, s1⟩ <;> rw [hent] at heq
      · cases heq
      rcases hre : readDirE subDir rest with er | ⟨fs2, s2⟩ <;> rw [hre] at heq
      · cases heq
      cases heq
      rcases e with ⟨name, h⟩ | ⟨name, sub⟩
      · simp only [hasSnapshotMarker, Bool.or_eq_true, decide_eq_true_eq] at hm
        rcases hm with hm | hm
        · -- the marker is this very entry: its branch sets the flag
          unfold readDirEnt at hent
          rw [hm] at hent
          dsimp only at hent
          split at hent
          · cases hent
          · cases hent
            simp
        · -- marker further right: flag comes from the tail
          simp [readDirE_marker_flag subDir rest hm fs2 s2 hre]
      · -- subdirectories contribute flag `false`; marker is in the tail
        simp only [hasSnapshotMarker] at hm
        simp [readDirE_marker_flag subDir rest hm fs2 s2 hre]

/-- C4 (amended): a snapshot marker in a directory tags EVERY migration
file the walker collects beneath that directory — both the directly
contained files and those in (marker-free, since deeper markers are
fatal) subdirectories. -/
theorem marker_tags_all_collected (subDir : String) (es : FsList)
    (hm : hasSnapshotMarker es = true) (fs : List sqlFile)
    (hok : readDirD subDir es = .ok fs) :
    ∀ f ∈ fs, f.isSnapshot = true := by
  unfold readDirD at hok
  rcases hre : readDirE subDir es with e | ⟨fs0, b⟩ <;> rw [hre] at hok
  · cases hok
  · cases hok
    have hb : b = true := readDirE_marker_flag subDir es hm fs0 b hre
    rw [hb]
    simp only [if_pos rfl]
    intro f hf
    rcases List.mem_map.mp hf with ⟨g, -, rfl⟩
    rfl

theorem marker_tags_all_collected_witness :
    hasSnapshotMarker (.cons (.file ".snapshot" "")
        (.cons (.dir "b" (.cons (.file "g.sql" "h2") .nil))
          (.cons (.file "f.sql" "h1") .nil))) = true ∧
    (∀ f ∈ [(⟨"a/b/g.sql", "h2", false, true⟩ : sqlFile), ⟨"a/f.sql", "h1", false, true⟩],
      f.isSnapshot = true) := by
  refine ⟨by decide, ?_⟩
  exact marker_tags_all_collected "a"
    (.cons (.file ".snapshot" "")
      (.cons (.dir "b" (.cons (.file "g.sql" "h2") .nil))
        (.cons (.file "f.sql" "h1") .nil)))
    (by decide) _ rfl

theorem errOf_map (x : Except PrepError (List sqlFile)) (g : List sqlFile → List sqlFile) :
    errOf (x.map g) = errOf x := by
  cases x <;> rfl

/-- C5: the Applicator writes a file's ledger entry only after its SQL
executed successfully, and a SQL execution failure aborts the run with the
ledger holding exactly the marked files strictly before the failing one
(the failing file's entry is never written and no later file is
attempted). -/
theorem applyMigrations_ledger_consistency (readOk execOk insertOk : String → Bool) :
    (∀ files p hsh, (p, hsh) ∈ (applyMigrations readOk execOk insertOk files).1 →
      execOk p = true) ∧
    (∀ pre post f,
      (∀ g ∈ pre, g.apply = true →
        readOk g.path = true ∧ execOk g.path = true ∧ insertOk g.path = true) →
      f.apply = true → readOk f.path = true → execOk f.path = false →
      applyMigrations readOk execOk insertOk (pre ++ f :: post)
        = ((pre.filter (fun g => g.apply)).map (fun g => (g.path, g.hash)),
            some ("exec " ++ f.path))) := by
  constructor
  · intro files
    induction files with
    | nil => intro p hsh h; simp [applyMigrations] at h
    | cons g fs ih =>
      intro p hsh h
      by_cases hga : g.apply = false
      · rw [applyMigrations, if_pos hga] at h
        exact ih p hsh h
      · rw [applyMigrations, if_neg hga] at h
        by_cases hrd : readOk g.path = false
        · rw [if_pos hrd] at h; simp at h
        · rw [if_neg hrd] at h
          by_cases hex : execOk g.path = false
          · rw [if_pos hex] at h; simp at h
          · rw [if_neg hex] at h
            by_cases hin : insertOk g.path = false
            · rw [if_pos hin] at h; simp at h
            · rw [if_neg hin] at h
              simp only [List.mem_cons, Prod.mk.injEq] at h
              rcases h with ⟨rfl, -⟩ | h
              · exact Bool.not_eq_false _ |>.mp hex
              · exact ih p hsh h
  · intro pre post f hpre hf hr he
    induction pre with
    | nil =>
      simp only [List.nil_append, List.filter_nil, List.map_nil]
      rw [applyMigrations, if_neg (by rw [hf]; exact Bool.true_eq_false ▸ fun h => nomatch h)]
      rw [if_neg (by rw [hr]; intro h; cases h), if_pos he]
    | cons g pre ih =>
      have hpre' : ∀ g' ∈ pre, g'.apply = true →
          readOk g'.path = true ∧ execOk g'.path = true ∧ insertOk g'.path = true :=
        fun g' hg' => hpre g' (List.mem_cons_of_mem g hg')
      by_cases hga : g.apply = false
      · rw [List.cons_append, applyMigrations, if_pos hga, ih hpre']
        rw [List.filter_cons_of_neg (by simp [hga])]
      · have hga' : g.apply = true := by
          cases hg : g.apply
          · exact absurd hg hga
          · rfl
        obtain ⟨h1, h2, h3⟩ := hpre g (List.mem_cons_self g pre) hga'
        rw [List.cons_append, applyMigrations, if_neg hga,
          if_neg (by rw [h1]; intro h; cases h),
          if_neg (by rw [h2]; intro h; cases h),
          if_neg (by rw [h3]; intro h; cases h), ih hpre']
        rw [List.filter_cons_of_pos (by simp [hga'])]
        rfl

theorem applyMigrations_ledger_consistency_witness :
    ((⟨"a/a1.sql", "h1", true, false⟩ : sqlFile).apply = true) ∧
    applyMigrations (fun _ => true) (fun p => p ≠ "b/bad.sql") (fun _ => true)
        [⟨"a/a1.sql", "h1", true, false⟩, ⟨"a/a2.sql", "h2", false, false⟩,
          ⟨"b/bad.sql", "h3", true, false⟩, ⟨"c/c1.sql", "h4", true, false⟩]
      = ([("a/a1.sql", "h1")], some ("exec " ++ "b/bad.sql")) := by
  refine ⟨rfl, ?_⟩
  have h := (applyMigrations_ledger_consistency (fun _ => true)
      (fun p => decide (p ≠ "b/bad.sql")) (fun _ => true)).2
    [⟨"a/a1.sql", "h1", true, false⟩, ⟨"a/a2.sql", "h2", false, false⟩]
    [⟨"c/c1.sql", "h4", true, false⟩] ⟨"b/bad.sql", "h3", true, false⟩
    (by decide) rfl (by decide) (by decide)
  simpa using h

/-- Every file matches its history entry pairwise by path and hash (the
history may be longer than the file list). -/
def histMatches : List Migration → List sqlFile → Bool
  | _, [] => true
  | m :: hist, f :: fs => m.filePath = f.path && m.fileHash = f.hash && histMatches hist fs
  | [], _ :: _ => false

theorem prepareLoop_all_matched (skip : Bool) (steps : Int) :
    ∀ (files : List sqlFile) (hist : List Migration) (t : Int),
      files.length ≤ hist.length → histMatches hist files = true →
      prepareLoop skip steps hist t files = .ok files
  | [], hist, t, _, _ => by cases hist <;> rfl
  | f :: fs, [], t, hlen, _ => by simp at hlen
  | f :: fs, m :: hist, t, hlen, hm => by
      simp only [histMatches, Bool.and_eq_true, decide_eq_true_eq] at hm
      obtain ⟨⟨hp, hh⟩, hrest⟩ := hm
      rw [prepareLoop, if_neg (by simp [hp]), if_neg (by simp [hh])]
      rw [prepareLoop_all_matched skip steps fs hist t (by simpa using hlen) hrest]
      rfl

/-- C10: when the ledger history for the app id is strictly longer than
the ordered file list but every file matches its history entry by path
and hash, reconciliation succeeds, returns the files unchanged (marking
none for apply), and the surplus trailing history entries are silently
ignored. -/
theorem surplus_history_ignored (skip : Bool) (steps : Int)
    (hist : List Migration) (files : List sqlFile)
    (hlen : files.length < hist.length) (hm : histMatches hist files = true) :
    prepareListOfMigrations skip steps hist files = .ok files :=
  prepareLoop_all_matched skip steps files hist 0 (Nat.le_of_lt hlen) hm

theorem surplus_history_ignored_witness :
    ([(⟨"a/f.sql", "h1", false, false⟩ : sqlFile)].length
        < ([⟨"a/f.sql", "h1"⟩, ⟨"b/g.sql", "h2"⟩] : List Migration).length) ∧
    histMatches [⟨"a/f.sql", "h1"⟩, ⟨"b/g.sql", "h2"⟩]
      [⟨"a/f.sql", "h1", false, false⟩] = true ∧
    prepareListOfMigrations false (-1) [⟨"a/f.sql", "h1"⟩, ⟨"b/g.sql", "h2"⟩]
        [⟨"a/f.sql", "h1", false, false⟩]
      = .ok [⟨"a/f.sql", "h1", false, false⟩] := by
  refine ⟨by decide, by decide, ?_⟩
  exact surplus_history_ignored false (-1) [⟨"a/f.sql", "h1"⟩, ⟨"b/g.sql", "h2"⟩]
    [⟨"a/f.sql", "h1", false, false⟩] (by decide) (by decide)

/-- Mark the first `n` files for apply, leave the rest untouched. -/
def markFirst (n : Nat) (fs : List sqlFile) : List sqlFile :=
  (fs.take n).map (fun f => { f with apply := true }) ++ fs.drop n

theorem prepareLoop_empty_hist_limited (skip : Bool) :
    ∀ (fs : List sqlFile) (t k : Nat), t ≤ k →
      prepareLoop skip (k : Int) [] (t : Int) fs = .ok (markFirst (k - t) fs)
  | [], t, k, _ => by simp [prepareLoop, markFirst]
  | f :: fs, t, k, htk => by
      by_cases heq : t = k
      · subst heq
        rw [prepareLoop, if_pos rfl]
        simp [markFirst]
      · have htk' : t + 1 ≤ k := by omega
        rw [prepareLoop, if_neg (by exact_mod_cast heq)]
        have := prepareLoop_empty_hist_limited skip fs (t + 1) k htk'
        push_cast at this
        rw [this]
        obtain ⟨m, hm2⟩ : ∃ m, k - t = m + 1 := ⟨k - t - 1, by omega⟩
        have hm3 : k - (t + 1) = m := by omega
        simp only [Except.map, markFirst, hm2, hm3, List.take_succ_cons,
          List.drop_succ_cons, List.map_cons, List.cons_append]

theorem prepareLoop_empty_hist_unlimited (skip : Bool) :
    ∀ (fs : List sqlFile) (t : Nat),
      prepareLoop skip (-1) [] (t : Int) fs
        = .ok (fs.map (fun f => { f with apply := true }))
  | [], t => rfl
  | f :: fs, t => by
      rw [prepareLoop, if_neg (by omega)]
      have := prepareLoop_empty_hist_unlimited skip fs (t + 1)
      push_cast at this
      rw [this]
      rfl

theorem prepareLoop_consume_matched (skip : Bool) (steps : Int) :
    ∀ (matched : List sqlFile) (hist : List Migration) (rest : List sqlFile) (t : Int),
      hist.length = matched.length → histMatches hist matched = true →
      prepareLoop skip steps hist t (matched ++ rest)
        = (prepareLoop skip steps [] t rest).map (matched ++ ·)
  | [], hist, rest, t, hlen, _ => by
      cases hist with
      | nil =>
        simp only [List.nil_append]
        cases h : prepareLoop skip steps [] t rest <;> simp [Except.map]
      | cons m hs => simp at hlen
  | f :: ms, hist, rest, t, hlen, hm => by
      cases hist with
      | nil => simp at hlen
      | cons m hs =>
        simp only [histMatches, Bool.and_eq_true, decide_eq_true_eq] at hm
        obtain ⟨⟨hp, hh⟩, hrest⟩ := hm
        rw [List.cons_append, prepareLoop, if_neg (by simp [hp]), if_neg (by simp [hh])]
        rw [prepareLoop_consume_matched skip steps ms hs rest t (by simpa using hlen) hrest]
        cases h : prepareLoop skip steps [] t rest <;> simp [Except.map]

/-- C8: once reconciliation reaches files beyond the exhausted history
(`matched` is the prefix paired off against the full history), a
non-sentinel step limit `k` marks exactly the first `min k (number of
remaining files)` remaining files and leaves every later file untouched,
while the sentinel `-1` marks every remaining file.  In particular, with 5
new files and step limit 2, exactly the first 2 are marked. -/
theorem step_limit_marks_front (skip : Bool) (hist : List Migration)
    (matched fresh : List sqlFile) (k : Nat)
    (hlen : hist.length = matched.length) (hm : histMatches hist matched = true) :
    prepareListOfMigrations skip (k : Int) hist (matched ++ fresh)
        = .ok (matched ++ markFirst k fresh) ∧
    prepareListOfMigrations skip (-1) hist (matched ++ fresh)
        = .ok (matched ++ fresh.map (fun f => { f with apply := true })) := by
  constructor
  · rw [prepareListOfMigrations, prepareLoop_consume_matched skip (k : Int) matched hist fresh 0 hlen hm]
    rw [show (0 : Int) = ((0 : Nat) : Int) by rfl,
      prepareLoop_empty_hist_limited skip fresh 0 k (Nat.zero_le k)]
    simp [Except.map]
  · rw [prepareListOfMigrations, prepareLoop_consume_matched skip (-1) matched hist fresh 0 hlen hm]
    rw [show (0 : Int) = ((0 : Nat) : Int) by rfl,
      prepareLoop_empty_hist_unlimited skip fresh 0]
    simp [Except.map]

theorem step_limit_marks_front_witness :
    histMatches [] [] = true ∧
    prepareListOfMigrations false (2 : Nat) []
        [⟨"a", "1", false, false⟩, ⟨"b", "2", false, false⟩, ⟨"c", "3", false, false⟩,
          ⟨"d", "4", false, false⟩, ⟨"e", "5", false, false⟩]
      = .ok [⟨"a", "1", true, false⟩, ⟨"b", "2", true, false⟩, ⟨"c", "3", false, false⟩,
          ⟨"d", "4", false, false⟩, ⟨"e", "5", false, false⟩] := by
  refine ⟨by decide, ?_⟩
  have h := (step_limit_marks_front false [] []
    [⟨"a", "1", false, false⟩, ⟨"b", "2", false, false⟩, ⟨"c", "3", false, false⟩,
      ⟨"d", "4", false, false⟩, ⟨"e", "5", false, false⟩] 2 rfl (by decide)).1
  simpa [markFirst] using h

/-- C6: reconciliation errs exactly as described by the history walk
(`specWalkError`, written from the claim): an unconsumed history entry
with a different path gives the moved error, a matching path with a
different hash gives the changed error unless skip-validation is on, and
with skip-validation on the entry is silently consumed, the file passes
through unmarked, and the walk continues; the step limit never introduces
an error. -/
theorem reconcile_error_characterisation :
    (∀ (skip : Bool) (steps : Int) (hist : List Migration) (t : Int) (fs : List sqlFile),
      errOf (prepareLoop skip steps hist t fs) = specWalkError skip hist fs) ∧
    (∀ (steps : Int) (m : Migration) (hist : List Migration) (f : sqlFile)
        (fs : List sqlFile) (t : Int),
      m.filePath = f.path → m.fileHash ≠ f.hash →
      prepareLoop true steps (m :: hist) t (f :: fs)
        = (prepareLoop true steps hist t fs).map (f :: ·)) := by
  constructor
  · intro skip steps hist t fs
    induction fs generalizing hist t with
    | nil => cases hist <;> rfl
    | cons f fs ih =>
      cases hist with
      | nil =>
        rw [prepareLoop]
        by_cases ht : t = steps
        · rw [if_pos ht]; rfl
        · rw [if_neg ht, errOf_map, ih [] (t + 1)]; rfl
      | cons m hist =>
        rw [prepareLoop, specWalkError]
        by_cases hp : m.filePath = f.path
        · have hp' : ¬(m.filePath ≠ f.path) := by simp [hp]
          rw [if_neg hp', if_neg hp']
          by_cases hh : m.fileHash = f.hash
          · have hh' : ¬(m.fileHash ≠ f.hash) := by simp [hh]
            rw [if_neg hh', if_neg hh', errOf_map, ih hist t]
          · rw [if_pos hh, if_pos hh]
            cases skip with
            | true => rw [if_pos rfl, errOf_map, ih hist t]; rfl
            | false => rfl
        · rw [if_pos hp, if_pos hp]; rfl
  · intro steps m hist f fs t hp hh
    have hp' : ¬(m.filePath ≠ f.path) := by simp [hp]
    rw [prepareLoop, if_neg hp', if_pos hh, if_pos rfl]

theorem reconcile_error_characterisation_witness :
    errOf (prepareLoop false (-1) [⟨"a/f.sql", "h1"⟩] 0 [⟨"a/f.sql", "hX", false, false⟩])
        = specWalkError false [⟨"a/f.sql", "h1"⟩] [⟨"a/f.sql", "hX", false, false⟩] ∧
    (⟨"a/f.sql", "h1"⟩ : Migration).filePath = "a/f.sql" ∧
    (⟨"a/f.sql", "h1"⟩ : Migration).fileHash ≠ "hX" ∧
    prepareLoop true (-1) [⟨"a/f.sql", "h1"⟩] 0
        [⟨"a/f.sql", "hX", false, false⟩, ⟨"b/g.sql", "h2", false, false⟩]
      = (prepareLoop true (-1) [] 0 [⟨"b/g.sql", "h2", false, false⟩]).map
          ((⟨"a/f.sql", "hX", false, false⟩ : sqlFile) :: ·) := by
  refine ⟨reconcile_error_characterisation.1 false (-1) [⟨"a/f.sql", "h1"⟩] 0
      [⟨"a/f.sql", "hX", false, false⟩], by decide, by decide, ?_⟩
  exact reconcile_error_characterisation.2 (-1) ⟨"a/f.sql", "h1"⟩ []
    ⟨"a/f.sql", "hX", false, false⟩ [⟨"b/g.sql", "h2", false, false⟩] 0 rfl (by decide)

theorem findLastSnap_none (l : List sqlFile) (k : Nat)
    (h : ∀ f ∈ l, f.isSnapshot = false) : findLastSnap l k = none := by
  induction l generalizing k with
  | nil => rfl
  | cons f rest ih =>
    rw [findLastSnap, if_neg (by simp [h f (List.mem_cons_self f rest)])]
    exact ih (k + 1) fun g hg => h g (List.mem_cons_of_mem f hg)

theorem findLastSnap_skip (xs ys : List sqlFile) (k : Nat)
    (h : ∀ f ∈ xs, f.isSnapshot = false) :
    findLastSnap (xs ++ ys) k = findLastSnap ys (k + xs.length) := by
  induction xs generalizing k with
  | nil => simp
  | cons f rest ih =>
    rw [List.cons_append, findLastSnap,
      if_neg (by simp [h f (List.mem_cons_self f rest)])]
    rw [ih (k + 1) fun g hg => h g (List.mem_cons_of_mem f hg)]
    congr 1
    simp
    omega

theorem goRun_all (d : List Char) (xs ys : List sqlFile)
    (h : ∀ f ∈ xs, f.isSnapshot = true ∧ leadsWith d f.path.toList = true) :
    goRun d (xs ++ ys) = xs.length + goRun d ys := by
  induction xs with
  | nil => simp
  | cons f rest ih =>
    obtain ⟨h1, h2⟩ := h f (List.mem_cons_self f rest)
    rw [List.cons_append, goRun, if_pos (by rw [h1, h2]; rfl)]
    rw [ih fun g hg => h g (List.mem_cons_of_mem f hg)]
    simp
    omega

/-- C7: `getLastSnapshot` keeps exactly the suffix starting at the first
file of the last maximal contiguous run of snapshot-tagged files sharing
(as a path prefix) the top-level directory of the last tagged file, the
backward extension stopping at any non-tagged file or tagged file from a
different top-level directory; with no tagged file the list is returned
unchanged and no snapshot is reported.  The decomposition: `B` is the
untagged tail after the last tagged file `r`, `R` is the rest of the run,
and `A` (whose last element, if any, fails the run test) is what gets
discarded. -/
theorem getLastSnapshot_characterisation :
    (∀ files : List sqlFile, (∀ f ∈ files, f.isSnapshot = false) →
      getLastSnapshot files = (false, "", files)) ∧
    (∀ (A R : List sqlFile) (r : sqlFile) (B : List sqlFile),
      r.isSnapshot = true →
      (∀ f ∈ B, f.isSnapshot = false) →
      (∀ f ∈ R, f.isSnapshot = true ∧ leadsWith (topDirOf r.path) f.path.toList = true) →
      (∀ a, A.getLast? = some a →
        ¬(a.isSnapshot = true ∧ leadsWith (topDirOf r.path) a.path.toList = true)) →
      getLastSnapshot (A ++ R ++ r :: B)
        = (true, String.mk (topDirOf r.path), R ++ r :: B)) := by
  constructor
  · intro files h
    unfold getLastSnapshot
    rw [findLastSnap_none files.reverse 0 fun f hf => h f (List.mem_reverse.mp hf)]
  · intro A R r B hr hB hR hA
    have hrev : (A ++ R ++ r :: B).reverse = B.reverse ++ r :: (R.reverse ++ A.reverse) := by
      simp
    have hgoA : goRun (topDirOf r.path) A.reverse = 0 := by
      cases hAr : A.reverse with
      | nil => rfl
      | cons a as =>
        have hlast : A.getLast? = some a := by
          rw [← List.head?_reverse, hAr]; rfl
        have hcond := hA a hlast
        rw [goRun]
        rw [if_neg ?_]
        intro hc
        rw [Bool.and_eq_true] at hc
        exact hcond ⟨hc.1, hc.2⟩
    unfold getLastSnapshot
    rw [hrev, findLastSnap_skip B.reverse _ 0 (fun f hf => hB f (List.mem_reverse.mp hf))]
    rw [findLastSnap, if_pos hr]
    rw [goRun_all (topDirOf r.path) R.reverse A.reverse
      (fun f hf => hR f (List.mem_reverse.mp hf)), hgoA]
    dsimp only
    have hlen : (A ++ R ++ r :: B).length
        - (0 + B.reverse.length + 1 + (R.reverse.length + 0)) = A.length := by
      simp
      omega
    rw [hlen]
    have hdrop : (A ++ R ++ r :: B).drop A.length = R ++ r :: B := by
      rw [List.append_assoc, List.drop_left]
    rw [hdrop]

theorem getLastSnapshot_witness :
    ((⟨"b/file3.sql", "", false, true⟩ : sqlFile).isSnapshot = true) ∧
    getLastSnapshot [⟨"a/file1.sql", "", false, false⟩, ⟨"b/file2.sql", "", false, true⟩,
        ⟨"b/file3.sql", "", false, true⟩, ⟨"c/file4.sql", "", false, false⟩]
      = (true, "b/", [⟨"b/file2.sql", "", false, true⟩, ⟨"b/file3.sql", "", false, true⟩,
          ⟨"c/file4.sql", "", false, false⟩]) := by
  refine ⟨rfl, ?_⟩
  have h := getLastSnapshot_characterisation.2 [⟨"a/file1.sql", "", false, false⟩]
    [⟨"b/file2.sql", "", false, true⟩] ⟨"b/file3.sql", "", false, true⟩
    [⟨"c/file4.sql", "", false, false⟩] rfl (by decide) (by decide) (by decide)
  simpa using h

theorem charEq_of_toNat {a b : Char} (h : a.toNat = b.toNat) : a = b :=
  Char.eq_of_val_eq (UInt32.ext h)

theorem lexCmp_vals (x y : List Char) :
    lexCmp x y = -1 ∨ lexCmp x y = 0 ∨ lexCmp x y = 1 := by
  induction x generalizing y with
  | nil => cases y <;> simp [lexCmp]
  | cons a as ih =>
    cases y with
    | nil => simp [lexCmp]
    | cons b bs =>
      rw [lexCmp]
      by_cases hab : a = b
      · rw [if_pos hab]; exact ih bs
      · rw [if_neg hab]
        by_cases hlt : a.toNat < b.toNat
        · rw [if_pos hlt]; left; rfl
        · rw [if_neg hlt]; right; right; rfl

theorem lexCmp_eq_zero_iff (x y : List Char) : lexCmp x y = 0 ↔ x = y := by
  induction x generalizing y with
  | nil => cases y <;> simp [lexCmp]
  | cons a as ih =>
    cases y with
    | nil => simp [lexCmp]
    | cons b bs =>
      rw [lexCmp]
      by_cases hab : a = b
      · rw [if_pos hab]; simp [hab, ih bs]
      · rw [if_neg hab]
        by_cases hlt : a.toNat < b.toNat
        · rw [if_pos hlt]; simp [hab]
        · rw [if_neg hlt]; simp [hab]

theorem lexCmp_swap (x y : List Char) : lexCmp y x = -(lexCmp x y) := by
  induction x generalizing y with
  | nil => cases y <;> simp [lexCmp]
  | cons a as ih =>
    cases y with
    | nil => simp [lexCmp]
    | cons b bs =>
      rw [lexCmp, lexCmp]
      by_cases hab : a = b
      · rw [if_pos hab, if_pos hab.symm]; exact ih bs
      · have hba : ¬ b = a := fun h => hab h.symm
        have hne : a.toNat ≠ b.toNat := fun h => hab (charEq_of_toNat h)
        rw [if_neg hab, if_neg hba]
        by_cases hlt : a.toNat < b.toNat
        · rw [if_pos hlt, if_neg (by omega)]; rfl
        · rw [if_neg hlt, if_pos (by omega)]

theorem lexCmp_trans_neg (x y z : List Char)
    (h1 : lexCmp x y = -1) (h2 : lexCmp y z = -1) : lexCmp x z = -1 := by
  induction x generalizing y z with
  | nil =>
    cases y with
    | nil => simp [lexCmp] at h1
    | cons b bs =>
      cases z with
      | nil => simp [lexCmp] at h2
      | cons c cs => rfl
  | cons a as ih =>
    cases y with
    | nil => simp [lexCmp] at h1
    | cons b bs =>
      cases z with
      | nil => simp [lexCmp] at h2
      | cons c cs =>
        rw [lexCmp] at h1 h2 ⊢
        by_cases hab : a = b <;> by_cases hbc : b = c
        · rw [if_pos (hab.trans hbc)]
          rw [if_pos hab] at h1
          rw [if_pos hbc] at h2
          exact ih bs cs h1 h2
        · rw [if_pos hab] at h1
          rw [if_neg hbc] at h2
          have hbc' : b.toNat < c.toNat := by
            by_cases h : b.toNat < c.toNat
            · exact h
            · rw [if_neg h] at h2; cases h2
          rw [if_neg (by rw [hab]; exact hbc), if_pos (by rw [hab]; exact hbc')]
        · rw [if_neg hab] at h1
          have hab' : a.toNat < b.toNat := by
            by_cases h : a.toNat < b.toNat
            · exact h
            · rw [if_neg h] at h1; cases h1
          rw [if_neg (by rw [← hbc]; exact hab), if_pos (by rw [← hbc]; exact hab')]
        · rw [if_neg hab] at h1
          rw [if_neg hbc] at h2
          have hab' : a.toNat < b.toNat := by
            by_cases h : a.toNat < b.toNat
            · exact h
            · rw [if_neg h] at h1; cases h1
          have hbc' : b.toNat < c.toNat := by
            by_cases h : b.toNat < c.toNat
            · exact h
            · rw [if_neg h] at h2; cases h2
          have hac : ¬ a = c := fun h => by
            rw [h] at hab'
            omega
          rw [if_neg hac, if_pos (by omega)]

theorem lexSegs_vals (s t : List (List Char)) :
    lexSegs s t = -1 ∨ lexSegs s t = 0 ∨ lexSegs s t = 1 := by
  induction s generalizing t with
  | nil => cases t <;> simp [lexSegs]
  | cons x xs ih =>
    cases t with
    | nil => simp [lexSegs]
    | cons y ys =>
      rw [lexSegs]
      by_cases h : lexCmp x y = 0
      · rw [if_pos h]; exact ih ys
      · rw [if_neg h]
        rcases lexCmp_vals x y with hv | hv | hv
        · left; exact hv
        · exact absurd hv h
        · right; right; exact hv

theorem lexSegs_eq_zero_iff (s t : List (List Char)) : lexSegs s t = 0 ↔ s = t := by
  induction s generalizing t with
  | nil => cases t <;> simp [lexSegs]
  | cons x xs ih =>
    cases t with
    | nil => simp [lexSegs]
    | cons y ys =>
      rw [lexSegs]
      by_cases h : lexCmp x y = 0
      · have := (lexCmp_eq_zero_iff x y).mp h
        rw [if_pos h]
        simp [this, ih ys]
      · rw [if_neg h]
        have : ¬ x = y := fun he => h ((lexCmp_eq_zero_iff x y).mpr he)
        simp [this, h]

theorem lexSegs_swap (s t : List (List Char)) : lexSegs t s = -(lexSegs s t) := by
  induction s generalizing t with
  | nil => cases t <;> simp [lexSegs]
  | cons x xs ih =>
    cases t with
    | nil => simp [lexSegs]
    | cons y ys =>
      rw [lexSegs, lexSegs]
      by_cases h : lexCmp x y = 0
      · have h' : lexCmp y x = 0 := by rw [lexCmp_swap, h]; rfl
        rw [if_pos h, if_pos h']
        exact ih ys
      · have h' : ¬ lexCmp y x = 0 := by
          rw [lexCmp_swap]
          intro hc
          exact h (by omega)
        rw [if_neg h, if_neg h', lexCmp_swap]

theorem lexSegs_trans_neg (s t u : List (List Char))
    (h1 : lexSegs s t = -1) (h2 : lexSegs t u = -1) : lexSegs s u = -1 := by
  induction s generalizing t u with
  | nil =>
    cases t with
    | nil => simp [lexSegs] at h1
    | cons y ys =>
      cases u with
      | nil => simp [lexSegs] at h2
      | cons c cs => rfl
  | cons x xs ih =>
    cases t with
    | nil => simp [lexSegs] at h1
    | cons y ys =>
      cases u with
      | nil => simp [lexSegs] at h2
      | cons z zs =>
        rw [lexSegs] at h1 h2 ⊢
        by_cases hxy : lexCmp x y = 0 <;> by_cases hyz : lexCmp y z = 0
        · have hx : x = y := (lexCmp_eq_zero_iff x y).mp hxy
          have hy : y = z := (lexCmp_eq_zero_iff y z).mp hyz
          rw [if_pos (by rw [(lexCmp_eq_zero_iff x z).mpr (hx.trans hy)])]
          rw [if_pos hxy] at h1
          rw [if_pos hyz] at h2
          exact ih ys zs h1 h2
        · have hx : x = y := (lexCmp_eq_zero_iff x y).mp hxy
          rw [if_neg hyz] at h2
          rw [hx, if_neg hyz, h2]
        · have hy : y = z := (lexCmp_eq_zero_iff y z).mp hyz
          rw [if_neg hxy] at h1
          rw [← hy, if_neg hxy, h1]
        · rw [if_neg hxy] at h1
          rw [if_neg hyz] at h2
          have hxz : lexCmp x z = -1 := lexCmp_trans_neg x y z h1 h2
          rw [if_neg (by rw [hxz]; intro h; cases h), hxz]

theorem segPre_self (s : List (List Char)) : segPre s s = true := by
  induction s with
  | nil => rfl
  | cons x xs ih => simp [segPre, ih]

theorem ne_of_segPre_false {s t : List (List Char)} (h : segPre s t = false) : s ≠ t := by
  intro he
  rw [he, segPre_self t] at h
  cases h

theorem segLoop_self (s : List (List Char)) : segLoop s s = .fell := by
  induction s with
  | nil => rfl
  | cons x xs ih => simp [segLoop, lexCmp_self, ih]

theorem segLoop_np (s t : List (List Char))
    (h1 : segPre s t = false) (h2 : segPre t s = false) :
    segLoop s t = .ret (lexSegs s t) := by
  induction s generalizing t with
  | nil => rw [segPre] at h1; cases h1
  | cons x xs ih =>
    cases t with
    | nil => rw [segPre] at h2; cases h2
    | cons y ys =>
      rw [segLoop, lexSegs]
      by_cases hc : lexCmp x y = 0
      · have hxy : x = y := (lexCmp_eq_zero_iff x y).mp hc
        rw [if_pos hc, if_pos hc]
        have h1' : segPre xs ys = false := by
          rw [segPre, hxy] at h1
          simpa using h1
        have h2' : segPre ys xs = false := by
          rw [segPre, hxy] at h2
          simpa using h2
        exact ih ys h1' h2'
      · rw [if_neg hc, if_neg hc]

theorem normCmp_vals (s t : List (List Char)) :
    normCmp s t = -1 ∨ normCmp s t = 0 ∨ normCmp s t = 1 := by
  unfold normCmp
  split_ifs
  · exact lexCmp_vals _ _
  · right; right; rfl
  · left; rfl
  · exact lexSegs_vals s t

theorem normCmp_swap (s t : List (List Char)) : normCmp t s = -(normCmp s t) := by
  unfold normCmp
  split_ifs <;>
    first
      | exact lexCmp_swap _ _
      | exact lexSegs_swap s t
      | norm_num

theorem singleton_of_short {α : Type} (l : List α) (h0 : l ≠ []) (h1 : l.length ≤ 1) :
    ∃ a, l = [a] := by
  cases l with
  | nil => exact absurd rfl h0
  | cons a rest =>
    cases rest with
    | nil => exact ⟨a, rfl⟩
    | cons b rest2 => simp at h1

theorem normCmp_eq_zero_iff (s t : List (List Char)) (hs : s ≠ []) (ht : t ≠ []) :
    normCmp s t = 0 ↔ s = t := by
  unfold normCmp
  split_ifs with hs1 ht1 ht1
  · obtain ⟨x, rfl⟩ := singleton_of_short s hs hs1
    obtain ⟨y, rfl⟩ := singleton_of_short t ht ht1
    simp [lexCmp_eq_zero_iff]
  · constructor
    · intro h; cases h
    · intro h
      rw [h] at hs1
      exact absurd hs1 ht1
  · constructor
    · intro h; cases h
    · intro h
      rw [h] at hs1
      exact absurd ht1 hs1
  · exact lexSegs_eq_zero_iff s t

theorem normCmp_trans_neg (s t u : List (List Char))
    (h1 : normCmp s t = -1) (h2 : normCmp t u = -1) : normCmp s u = -1 := by
  unfold normCmp at h1 h2 ⊢
  split_ifs at h1 h2 ⊢ <;>
    first
      | rfl
      | cases h1
      | cases h2
      | exact lexCmp_trans_neg _ _ _ h1 h2
      | exact lexSegs_trans_neg s t u h1 h2

theorem goCompareSegs_single (x y : List Char) :
    goCompareSegs [x] [y] = some (lexCmp x y) := rfl

theorem goCompareSegs_shallow_deep (s t : List (List Char))
    (hs : s.length = 1) (ht : 2 ≤ t.length) :
    goCompareSegs s t = some ((t.length : Int) - 1) := by
  unfold goCompareSegs
  dsimp only
  rw [hs]
  have hmin : min (1 - 1) (t.length - 1) = 0 := by omega
  rw [hmin, if_neg (show ¬(0 : Nat) < 0 by omega)]
  dsimp only
  rw [if_neg (show ¬(1 = t.length) by omega)]
  norm_num

theorem goCompareSegs_deep_shallow (s t : List (List Char))
    (hs : 2 ≤ s.length) (ht : t.length = 1) :
    goCompareSegs s t = some ((1 : Int) - (s.length : Int)) := by
  unfold goCompareSegs
  dsimp only
  rw [ht]
  have hmin : min (s.length - 1) (1 - 1) = 0 := by omega
  rw [hmin, if_neg (show ¬(0 : Nat) < 0 by omega)]
  dsimp only
  rw [if_neg (show ¬(s.length = 1) by omega)]
  norm_num

theorem goCompareSegs_deep (s t : List (List Char))
    (hs : 2 ≤ s.length) (ht : 2 ≤ t.length)
    (h1 : segPre s t = false) (h2 : segPre t s = false) :
    goCompareSegs s t = some (lexSegs s t) := by
  unfold goCompareSegs
  dsimp only
  rw [if_pos (show 0 < min (s.length - 1) (t.length - 1) by omega)]
  rw [segLoop_np s t h1 h2]

/-- On a pair of segment lists neither of which is a prefix of the other,
the `prepareFiles` comparator is defined (no out-of-range access), returns
opposite values on swapped arguments, never returns 0, and agrees in sign
with the total order `normCmp`. -/
theorem goCompareSegs_np (s t : List (List Char))
    (h1 : segPre s t = false) (h2 : segPre t s = false) :
    ∃ c, goCompareSegs s t = some c ∧ goCompareSegs t s = some (-c) ∧
      c ≠ 0 ∧ (c < 0 ↔ normCmp s t < 0) := by
  have hs : s ≠ [] := by intro he; rw [he] at h1; cases h1
  have ht : t ≠ [] := by intro he; rw [he] at h2; cases h2
  have hst : s ≠ t := ne_of_segPre_false h1
  by_cases hs1 : s.length ≤ 1 <;> by_cases ht1 : t.length ≤ 1
  · obtain ⟨x, rfl⟩ := singleton_of_short s hs hs1
    obtain ⟨y, rfl⟩ := singleton_of_short t ht ht1
    refine ⟨lexCmp x y, goCompareSegs_single x y, ?_, ?_, ?_⟩
    · rw [goCompareSegs_single, lexCmp_swap]
    · intro hc
      exact hst (by simpa using (lexCmp_eq_zero_iff x y).mp hc)
    · unfold normCmp
      rw [if_pos (by simp), if_pos (by simp)]
      simp
  · have hs' : s.length = 1 := by
      have := List.length_pos.mpr hs; omega
    have ht' : 2 ≤ t.length := by omega
    refine ⟨(t.length : Int) - 1, goCompareSegs_shallow_deep s t hs' ht', ?_, by omega, ?_⟩
    · rw [goCompareSegs_deep_shallow t s ht' hs']
      congr 1
      omega
    · unfold normCmp
      rw [if_pos hs1, if_neg ht1]
      constructor
      · intro h; omega
      · intro h; omega
  · have ht' : t.length = 1 := by
      have := List.length_pos.mpr ht; omega
    have hs' : 2 ≤ s.length := by omega
    refine ⟨(1 : Int) - (s.length : Int), goCompareSegs_deep_shallow s t hs' ht', ?_, by omega, ?_⟩
    · rw [goCompareSegs_shallow_deep t s ht' hs']
      congr 1
      omega
    · unfold normCmp
      rw [if_neg hs1, if_pos ht1]
      constructor
      · intro h; omega
      · intro h; omega
  · refine ⟨lexSegs s t, goCompareSegs_deep s t (by omega) (by omega) h1 h2, ?_, ?_, ?_⟩
    · rw [goCompareSegs_deep t s (by omega) (by omega) h2 h1, lexSegs_swap]
    · intro hc
      exact hst ((lexSegs_eq_zero_iff s t).mp hc)
    · unfold normCmp
      rw [if_neg hs1, if_neg ht1]

theorem splitSegs_ne_nil (cs : List Char) : splitSegs cs ≠ [] := by
  cases cs with
  | nil => intro h; cases h
  | cons c rest =>
    rw [splitSegs]
    by_cases hc : c = '/'
    · rw [if_pos hc]; intro h; cases h
    · rw [if_neg hc]
      rcases splitSegs rest with _ | ⟨s, ss⟩ <;> intro h <;> cases h

theorem goCompareSegs_self (s : List (List Char)) (hs : s ≠ []) :
    goCompareSegs s s = some 0 := by
  by_cases hs1 : s.length ≤ 1
  · obtain ⟨x, rfl⟩ := singleton_of_short s hs hs1
    rw [goCompareSegs_single, lexCmp_self]
  · unfold goCompareSegs
    dsimp only
    rw [if_pos (show 0 < min (s.length - 1) (s.length - 1) by omega)]
    rw [segLoop_self]
    dsimp only
    rw [if_pos rfl, lexCmp_self]

theorem goCompare_self (a : String) : goCompare a a = some 0 :=
  goCompareSegs_self (splitSegs a.toList) (splitSegs_ne_nil a.toList)

/-- `fileLe f g`: the sort predicate `cmp(f, g) ≤ 0` used to state
sortedness of the `prepareFiles` output. -/
def fileLe (f g : sqlFile) : Prop := pathCmpD f.path g.path ≤ 0

theorem fileLe_refl (f : sqlFile) : fileLe f f := by
  unfold fileLe pathCmpD
  rw [goCompare_self]
  exact le_refl 0

theorem fileCmp_np (f g : sqlFile) (h : segFree f g) :
    ∃ c, goCompare f.path g.path = some c ∧ goCompare g.path f.path = some (-c) ∧
      c ≠ 0 ∧
      (c < 0 ↔ normCmp (splitSegs f.path.toList) (splitSegs g.path.toList) < 0) :=
  goCompareSegs_np (splitSegs f.path.toList) (splitSegs g.path.toList) h.1 h.2

theorem fileLe_total_np (f g : sqlFile) (h : segFree f g) : fileLe f g ∨ fileLe g f := by
  obtain ⟨c, h1, h2, h3, -⟩ := fileCmp_np f g h
  unfold fileLe pathCmpD
  rw [h1, h2]
  by_cases hc : c ≤ 0
  · left; exact hc
  · right; simpa using by omega

theorem fileLe_asymm_np (f g : sqlFile) (h : segFree f g) :
    fileLe f g → fileLe g f → False := by
  obtain ⟨c, h1, h2, h3, -⟩ := fileCmp_np f g h
  unfold fileLe pathCmpD
  rw [h1, h2]
  intro ha hb
  simp at ha hb
  omega

theorem fileLe_trans_np (f g k : sqlFile)
    (hfg : segFree f g) (hgk : segFree g k) (hfk : segFree f k) :
    fileLe f g → fileLe g k → fileLe f k := by
  obtain ⟨c1, e1, -, n1, i1⟩ := fileCmp_np f g hfg
  obtain ⟨c2, e2, -, n2, i2⟩ := fileCmp_np g k hgk
  obtain ⟨c3, e3, -, n3, i3⟩ := fileCmp_np f k hfk
  unfold fileLe pathCmpD
  rw [e1, e2, e3]
  intro h1 h2
  simp at h1 h2 ⊢
  have hc1 : c1 < 0 := by omega
  have hc2 : c2 < 0 := by omega
  have hn1 := i1.mp hc1
  have hn2 := i2.mp hc2
  have hv1 := normCmp_vals (splitSegs f.path.toList) (splitSegs g.path.toList)
  have hv2 := normCmp_vals (splitSegs g.path.toList) (splitSegs k.path.toList)
  have hn1' : normCmp (splitSegs f.path.toList) (splitSegs g.path.toList) = -1 := by
    rcases hv1 with h | h | h <;> omega
  have hn2' : normCmp (splitSegs g.path.toList) (splitSegs k.path.toList) = -1 := by
    rcases hv2 with h | h | h <;> omega
  have hn3 := normCmp_trans_neg _ _ _ hn1' hn2'
  have : c3 < 0 := i3.mpr (by omega)
  omega

theorem segFree_symm {f g : sqlFile} (h : segFree f g) : segFree g f := ⟨h.2, h.1⟩

theorem pairwise_segFree_cases {l : List sqlFile} (h : List.Pairwise segFree l) :
    ∀ f ∈ l, ∀ g ∈ l, f = g ∨ segFree f g := by
  induction l with
  | nil => intro f hf; cases hf
  | cons a rest ih =>
    rcases List.pairwise_cons.mp h with ⟨ha, hrest⟩
    intro f hf g hg
    rcases List.mem_cons.mp hf with rfl | hf' <;> rcases List.mem_cons.mp hg with rfl | hg'
    · left; rfl
    · right; exact ha g hg'
    · right; exact segFree_symm (ha f hf')
    · exact ih hrest f hf' g hg'

theorem insertCmp_perm (f : sqlFile) (l : List sqlFile) :
    (insertCmp f l).Perm (f :: l) := by
  induction l with
  | nil => exact List.Perm.refl _
  | cons g gs ih =>
    rw [insertCmp]
    by_cases hle : pathCmpD f.path g.path ≤ 0
    · rw [if_pos hle]
    · rw [if_neg hle]
      exact (ih.cons g).trans (List.Perm.swap f g gs)

theorem prepareFiles_perm (l : List sqlFile) : (prepareFiles l).Perm l := by
  induction l with
  | nil => exact List.Perm.refl _
  | cons f fs ih => exact (insertCmp_perm f (prepareFiles fs)).trans (ih.cons f)

theorem insertCmp_sorted (f : sqlFile) (L : List sqlFile)
    (hs : List.Pairwise fileLe L)
    (htot : ∀ g ∈ L, fileLe f g ∨ fileLe g f)
    (htr : ∀ g ∈ L, ∀ x ∈ L, fileLe f g → fileLe g x → fileLe f x) :
    List.Pairwise fileLe (insertCmp f L) := by
  induction L with
  | nil => simp [insertCmp]
  | cons g gs ih =>
    rcases List.pairwise_cons.mp hs with ⟨hg, hgs⟩
    rw [insertCmp]
    by_cases hle : pathCmpD f.path g.path ≤ 0
    · rw [if_pos hle]
      apply List.pairwise_cons.mpr
      refine ⟨?_, hs⟩
      intro y hy
      rcases List.mem_cons.mp hy with rfl | hy'
      · exact hle
      · exact htr g (List.mem_cons_self g gs) y (List.mem_cons_of_mem g hy') hle (hg y hy')
    · rw [if_neg hle]
      apply List.pairwise_cons.mpr
      constructor
      · intro y hy
        have hy2 : y = f ∨ y ∈ gs := by
          have := (insertCmp_perm f gs).mem_iff.mp hy
          simpa using this
        rcases hy2 with rfl | hy'
        · rcases htot g (List.mem_cons_self g gs) with h | h
          · exact absurd h hle
          · exact h
        · exact hg y hy'
      · exact ih hgs
          (fun x hx => htot x (List.mem_cons_of_mem g hx))
          (fun x hx y hy => htr x (List.mem_cons_of_mem g hx) y (List.mem_cons_of_mem g hy))

theorem prepareFiles_sorted (l : List sqlFile)
    (htot : ∀ f ∈ l, ∀ g ∈ l, fileLe f g ∨ fileLe g f)
    (htr : ∀ f ∈ l, ∀ g ∈ l, ∀ k ∈ l, fileLe f g → fileLe g k → fileLe f k) :
    List.Pairwise fileLe (prepareFiles l) := by
  induction l with
  | nil => simp [prepareFiles]
  | cons f fs ih =>
    rw [prepareFiles]
    have hmem : ∀ x ∈ prepareFiles fs, x ∈ fs := fun x hx =>
      (prepareFiles_perm fs).mem_iff.mp hx
    apply insertCmp_sorted
    · exact ih
        (fun a ha b hb => htot a (List.mem_cons_of_mem f ha) b (List.mem_cons_of_mem f hb))
        (fun a ha b hb c hc => htr a (List.mem_cons_of_mem f ha) b (List.mem_cons_of_mem f hb)
          c (List.mem_cons_of_mem f hc))
    · intro g hg
      exact htot f (List.mem_cons_self f fs) g (List.mem_cons_of_mem f (hmem g hg))
    · intro g hg x hx
      exact htr f (List.mem_cons_self f fs) g (List.mem_cons_of_mem f (hmem g hg))
        x (List.mem_cons_of_mem f (hmem x hx))

theorem sorted_perm_eq :
    ∀ (l1 l2 : List sqlFile), l1.Perm l2 →
      List.Pairwise fileLe l1 → List.Pairwise fileLe l2 →
      (∀ a ∈ l1, ∀ b ∈ l1, fileLe a b → fileLe b a → a = b) → l1 = l2
  | [], l2, hp, _, _, _ => (List.Perm.eq_nil hp.symm).symm
  | a :: t1, [], hp, _, _, _ => absurd (List.Perm.eq_nil hp) (by intro h; cases h)
  | a :: t1, b :: t2, hp, hs1, hs2, hanti => by
      rcases List.pairwise_cons.mp hs1 with ⟨ha1, ht1⟩
      rcases List.pairwise_cons.mp hs2 with ⟨hb2, ht2⟩
      have hab : a = b := by
        have hamem : a ∈ b :: t2 := hp.subset (List.mem_cons_self a t1)
        rcases List.mem_cons.mp hamem with h | hat2
        · exact h
        · have hba : fileLe b a := hb2 a hat2
          have hbmem : b ∈ a :: t1 := hp.symm.subset (List.mem_cons_self b t2)
          rcases List.mem_cons.mp hbmem with h | hbt1
          · exact h.symm
          · have hab' : fileLe a b := ha1 b hbt1
            exact hanti a (List.mem_cons_self a t1) b (List.mem_cons_of_mem a hbt1) hab' hba
      subst hab
      have hp' : t1.Perm t2 := hp.cons_inv
      have ht12 : t1 = t2 := sorted_perm_eq t1 t2 hp' ht1 ht2
        (fun x hx y hy => hanti x (List.mem_cons_of_mem a hx) y (List.mem_cons_of_mem a hy))
      rw [ht12]

/-- C9: on every duplicate-free, segment-prefix-free list of file paths —
which is every path set the Directory Walker can produce, since a file and
a directory of the same name cannot coexist in one directory — the
`prepareFiles` comparator is total (`isSome`: the out-of-range branch is
unreachable), antisymmetric (swapping the arguments negates the value, and
value 0 occurs exactly on equal paths), and transitive, and the sorted
output is invariant under permutation of the input list. -/
theorem ordering_strict_total_order (l : List sqlFile)
    (hl : List.Pairwise segFree l) :
    (∀ f ∈ l, ∀ g ∈ l, (goCompare f.path g.path).isSome = true) ∧
    (∀ f ∈ l, ∀ g ∈ l, (pathCmpD f.path g.path = 0 ↔ f.path = g.path)) ∧
    (∀ f ∈ l, ∀ g ∈ l, pathCmpD g.path f.path = -(pathCmpD f.path g.path)) ∧
    (∀ f ∈ l, ∀ g ∈ l, ∀ k ∈ l, fileLe f g → fileLe g k → fileLe f k) ∧
    (∀ l', l.Perm l' → prepareFiles l' = prepareFiles l) := by
  have hcases := pairwise_segFree_cases hl
  refine ⟨?_, ?_, ?_, ?_, ?_⟩
  · intro f hf g hg
    rcases hcases f hf g hg with rfl | hnp
    · rw [goCompare_self]; rfl
    · obtain ⟨c, h1, -, -, -⟩ := fileCmp_np f g hnp
      rw [h1]; rfl
  · intro f hf g hg
    rcases hcases f hf g hg with rfl | hnp
    · constructor
      · intro _; rfl
      · intro _
        unfold pathCmpD
        rw [goCompare_self]
        rfl
    · obtain ⟨c, h1, -, h3, -⟩ := fileCmp_np f g hnp
      unfold pathCmpD
      rw [h1]
      constructor
      · intro hc
        exact absurd (by simpa using hc) h3
      · intro hpg
        have hfree := hnp.1
        rw [show splitSegs f.path.toList = splitSegs g.path.toList by rw [hpg],
          segPre_self] at hfree
        cases hfree
  · intro f hf g hg
    rcases hcases f hf g hg with rfl | hnp
    · unfold pathCmpD
      rw [goCompare_self]
      rfl
    · obtain ⟨c, h1, h2, -, -⟩ := fileCmp_np f g hnp
      unfold pathCmpD
      rw [h1, h2]
      rfl
  · intro f hf g hg k hk
    rcases hcases f hf g hg with rfl | hfg
    · intro _ h2; exact h2
    rcases hcases g hg k hk with rfl | hgk
    · intro h1 _; exact h1
    rcases hcases f hf k hk with rfl | hfk
    · intro _ _; exact fileLe_refl f
    · exact fileLe_trans_np f g k hfg hgk hfk
  · intro l' hp
    have htot : ∀ f ∈ l, ∀ g ∈ l, fileLe f g ∨ fileLe g f := by
      intro f hf g hg
      rcases hcases f hf g hg with rfl | hnp
      · left; exact fileLe_refl f
      · exact fileLe_total_np f g hnp
    have htr : ∀ f ∈ l, ∀ g ∈ l, ∀ k ∈ l, fileLe f g → fileLe g k → fileLe f k := by
      intro f hf g hg k hk
      rcases hcases f hf g hg with rfl | hfg
      · intro h1 h2; exact h2
      rcases hcases g hg k hk with rfl | hgk
      · intro h1 _; exact h1
      rcases hcases f hf k hk with rfl | hfk
      · intro _ _; exact fileLe_refl f
      · exact fileLe_trans_np f g k hfg hgk hfk
    have hanti : ∀ a ∈ l, ∀ b ∈ l, fileLe a b → fileLe b a → a = b := by
      intro a ha b hb h1 h2
      rcases hcases a ha b hb with rfl | hnp
      · rfl
      · exact absurd h2 (by intro h2'; exact fileLe_asymm_np a b hnp h1 h2')
    have hmeml' : ∀ x, x ∈ l' ↔ x ∈ l := fun x => hp.symm.mem_iff
    have hs1 : List.Pairwise fileLe (prepareFiles l') :=
      prepareFiles_sorted l'
        (fun f hf g hg => htot f ((hmeml' f).mp hf) g ((hmeml' g).mp hg))
        (fun f hf g hg k hk => htr f ((hmeml' f).mp hf) g ((hmeml' g).mp hg)
          k ((hmeml' k).mp hk))
    have hs2 : List.Pairwise fileLe (prepareFiles l) := prepareFiles_sorted l htot htr
    have hperm : (prepareFiles l').Perm (prepareFiles l) :=
      ((prepareFiles_perm l').trans hp.symm).trans (prepareFiles_perm l).symm
    exact sorted_perm_eq (prepareFiles l') (prepareFiles l) hperm hs1 hs2
      (fun x hx y hy => hanti x ((hmeml' x).mp ((prepareFiles_perm l').mem_iff.mp hx))
        y ((hmeml' y).mp ((prepareFiles_perm l').mem_iff.mp hy)))

instance (f g : sqlFile) : Decidable (segFree f g) := by
  unfold segFree
  infer_instance

theorem ordering_strict_total_order_witness :
    List.Pairwise segFree [(⟨"a/f.sql", "h1", false, false⟩ : sqlFile),
      ⟨"b/g.sql", "h2", false, false⟩, ⟨"z.sql", "h3", false, false⟩] ∧
    prepareFiles [⟨"z.sql", "h3", false, false⟩, ⟨"b/g.sql", "h2", false, false⟩,
        ⟨"a/f.sql", "h1", false, false⟩]
      = prepareFiles [⟨"a/f.sql", "h1", false, false⟩, ⟨"b/g.sql", "h2", false, false⟩,
          ⟨"z.sql", "h3", false, false⟩] := by
  refine ⟨by decide, ?_⟩
  exact (ordering_strict_total_order
    [⟨"a/f.sql", "h1", false, false⟩, ⟨"b/g.sql", "h2", false, false⟩,
      ⟨"z.sql", "h3", false, false⟩] (by decide)).2.2.2.2
    [⟨"z.sql", "h3", false, false⟩, ⟨"b/g.sql", "h2", false, false⟩,
      ⟨"a/f.sql", "h1", false, false⟩] (by decide)
